import Mathlib

/-!
Shallow embedding of `s3indexbuilder.py`, a single-file batch reconciler that
maintains synthetic `index.html` directory listings in an object-storage
bucket.  Python strings are modelled as `List Char` (Python compares strings
code point by code point, which coincides with `Char` comparison).  Python
dicts are modelled as insertion-ordered association lists, the MD5 hex-digest
function from `hashlib` (an external library) is an arbitrary parameter
`md5hex : Str → Str`, and the storage/CDN collaborators are modelled by the
storage mutations (`puts`/`deletes`) and the invalidation set the run issues.
-/

namespace S3IB

/-- Python strings, as their sequence of code points. -/
abbrev Str := List Char

/-- `s.rstrip('/')` on the slash character: drop every trailing slash. -/
def rstripSlash (p : Str) : Str := (p.reverse.dropWhile (fun c => c = '/')).reverse

/-- `os.path.split(p)` (posixpath semantics): split at the final slash, keeping
everything after it as the tail; the head keeps its trailing slashes only when
it consists entirely of slashes. -/
def pathSplit (p : Str) : Str × Str :=
  let tail := (p.reverse.takeWhile (fun c => c ≠ '/')).reverse
  let head := p.take (p.length - tail.length)
  (if head.any (fun c => c ≠ '/') then rstripSlash head else head, tail)

/-- `os.path.dirname`. -/
def dirname (p : Str) : Str := (pathSplit p).1

/-- `os.path.basename`. -/
def basename (p : Str) : Str := (pathSplit p).2

/-- Python dicts keyed by strings, as insertion-ordered association lists. -/
abbrev Dict (α : Type) := List (Str × α)

/-- The key view `d.keys()` of a dict. -/
def keysOf {α : Type} (d : Dict α) : List Str := d.map Prod.fst

/-- Dict lookup `d[q]`, as an `Option`. -/
def dictGet {α : Type} : Dict α → Str → Option α
  | [], _ => none
  | (k, v) :: rest, q => if k = q then some v else dictGet rest q

/-- Dict assignment `d[q] = v`: replace in place, or append a new entry. -/
def dictSet {α : Type} : Dict α → Str → α → Dict α
  | [], q, v => [(q, v)]
  | (k, w) :: rest, q, v =>
    if k = q then (k, v) :: rest else (k, w) :: dictSet rest q v

/-- `defaultdict(list)` update `d[q].append(x)`. -/
def dictPush {α : Type} : Dict (List α) → Str → α → Dict (List α)
  | [], q, x => [(q, [x])]
  | (k, w) :: rest, q, x =>
    if k = q then (k, w ++ [x]) :: rest else (k, w) :: dictPush rest q x

/-- Python string comparison `a <= b`: lexicographic on code points, a strict
prefix preceding every extension. -/
def strLeB : Str → Str → Bool
  | [], _ => true
  | _ :: _, [] => false
  | a :: as, b :: bs => if a < b then true else if a = b then strLeB as bs else false

/-- Python string comparison `a < b`. -/
def strLtB : Str → Str → Bool
  | [], [] => false
  | [], _ :: _ => true
  | _ :: _, [] => false
  | a :: as, b :: bs => if a < b then true else if a = b then strLtB as bs else false

/-- Does the string `s` start with `p`?  (`s.startswith(p)`.) -/
def strStarts : Str → Str → Bool
  | [], _ => true
  | _ :: _, [] => false
  | a :: as, b :: bs => if a = b then strStarts as bs else false

/-- A `datetime` value as far as this program observes one: the fields read by
`strftime("%d-%b-%Y %H:%M")`. -/
structure PyDateTime where
  year : Nat
  month : Nat
  day : Nat
  hour : Nat
  minute : Nat
deriving DecidableEq, Repr

/-- Decimal rendering of a natural number, `'{}'.format(n)`. -/
def natStr (n : Nat) : Str := (Nat.repr n).data

/-- Zero-padded two-digit field (`%d`, `%H`, `%M`). -/
def pad2 (n : Nat) : Str := if n < 10 then '0' :: natStr n else natStr n

/-- Three-letter month abbreviation (`%b`, C locale). -/
def month3 (m : Nat) : Str :=
  (match m with
   | 1 => "Jan" | 2 => "Feb" | 3 => "Mar" | 4 => "Apr" | 5 => "May" | 6 => "Jun"
   | 7 => "Jul" | 8 => "Aug" | 9 => "Sep" | 10 => "Oct" | 11 => "Nov" | 12 => "Dec"
   | _ => "").data

/-- `date.strftime("%d-%b-%Y %H:%M")`. -/
def strftimeRow (dt : PyDateTime) : Str :=
  pad2 dt.day ++ "-".data ++ month3 dt.month ++ "-".data ++ natStr dt.year
    ++ " ".data ++ pad2 dt.hour ++ ":".data ++ pad2 dt.minute

/-- One object record of the bucket enumeration: the fields of a
`list_objects_v2` `Contents` element that the program reads. -/
structure ObjectRecord where
  key : Str
  lastModified : PyDateTime
  size : Nat
  etag : Str
deriving DecidableEq, Repr

/-- `split_bucket_contents` (without the network): partition enumerated records
into the listing-document dict (`indexes`, base name exactly `index.html`) and
the per-directory content dict (`files`), keyed by `os.path.split` directory. -/
def split_bucket_contents (records : List ObjectRecord) :
    Dict ObjectRecord × Dict (List ObjectRecord) :=
  records.foldl
    (fun acc o =>
      let dn := dirname o.key
      if basename o.key = "index.html".data then (dictSet acc.1 dn o, acc.2)
      else (acc.1, dictPush acc.2 dn o))
    ([], [])

/-- One entry of a directory listing: the tuple
`(name, LastModified-or-None, Size-or-None)` built by `generate_index_for`
(`None`/`None` marks a subdirectory entry). -/
abbrev Entry := Str × Option PyDateTime × Option Nat

/-- The sort order of `sorted(entries, key=lambda x: x[0])`: compare the bare
entry names as Python strings. -/
def entryLe (e₁ e₂ : Entry) : Prop := strLeB e₁.1 e₂.1 = true

instance : DecidableRel entryLe := fun e₁ e₂ =>
  show Decidable (strLeB e₁.1 e₂.1 = true) from inferInstance

/-- The file entries of a directory: `files[directory]`, in stored order. -/
def fileEntries (files : Dict (List ObjectRecord)) (d : Str) : List Entry :=
  ((dictGet files d).getD []).map (fun o => (basename o.key, some o.lastModified, some o.size))

/-- The immediate-subdirectory keys of `d`: every other dict key `dn ≠ ''`
with `os.path.dirname(dn) == d`, in dict order. -/
def subdirsOf (files : Dict (List ObjectRecord)) (d : Str) : List Str :=
  (keysOf files).filter (fun dn => !(decide (dn = [])) && decide (dirname dn = d))

/-- The merged entry list of a directory: files first, then subdirectories,
exactly as `generate_index_for` builds `entries`. -/
def entriesFor (files : Dict (List ObjectRecord)) (d : Str) : List Entry :=
  fileEntries files d ++ (subdirsOf files d).map (fun dn => (basename dn, none, none))

/-- `sorted(entries, key=lambda x: x[0])`.  Python's `sorted` is a stable sort
by the key, and a stable sort with respect to a total preorder is unique, so
insertion sort computes exactly the list Python produces. -/
def sortedEntriesFor (files : Dict (List ObjectRecord)) (d : Str) : List Entry :=
  List.insertionSort entryLe (entriesFor files d)

/-- The display name of an entry: the bare name, plus a `/` suffix when the
entry is a subdirectory (`size is None`). -/
def displayOf (e : Entry) : Str := e.1 ++ (if e.2.2 = none then ['/'] else [])

/-- The table row written for one entry. -/
def entryRow (e : Entry) : Str :=
  "<tr><td><a href=\"".data ++ displayOf e ++ "\">".data ++ displayOf e
    ++ "</a></td><td>".data
    ++ (match e.2.1 with | some dt => strftimeRow dt | none => [])
    ++ "</td><td>".data
    ++ (match e.2.2 with | some n => natStr n | none => [])
    ++ "</td></tr>\n".data

/-- The parent-directory link row, written when `directory != ''`. -/
def parentRow : Str :=
  "<tr><td><a href=\"../\">../</a></td><td></td><td></td></tr>\n".data

/-- The sequence of table rows of a listing: the parent row for a non-empty
directory string, then one row per sorted entry. -/
def tableRows (files : Dict (List ObjectRecord)) (d : Str) : List Str :=
  (if d = [] then [] else [parentRow]) ++ (sortedEntriesFor files d).map entryRow

/-- Everything `generate_index_for` writes before the table rows. -/
def docHeader (d : Str) : Str :=
  "<!DOCTYPE html>\n<html>\n<head>\n<title>Index of ".data ++ d
    ++ "/</title>\n<style>table \x7bfont-family: monospace;\x7d table td \x7b padding-right: 40px;\x7d</style>\n</head>\n<body>\n<h1>Index of ".data
    ++ d ++ "/</h1>\n<hr>\n<table>\n".data

/-- Everything `generate_index_for` writes after the table rows. -/
def docFooter : Str := "</table>\n</body>\n</html>\n".data

/-- `generate_index_for(files, directory)`: the full rendered listing body. -/
def generate_index_for (files : Dict (List ObjectRecord)) (d : Str) : Str :=
  docHeader d ++ (tableRows files d).flatten ++ docFooter

/-- The ancestor walk of `fill_missing_parent_directories`: starting from a
directory `dn`, repeat `dn = os.path.dirname(dn)` while `dn` is non-empty and
different from the operating prefix, scheduling each visited directory that is
neither a key of `files` nor already scheduled.  The Python `while` loop is
modelled with fuel; `none` means the fuel ran out, which (with the fuel used
below) happens exactly when the Python loop never terminates. -/
def parentWalk (keys : List Str) (pfx : Str) : Nat → Str → List Str → Option (List Str)
  | 0, _, _ => none
  | fuel + 1, dn, add =>
    if dn = [] ∨ dn = pfx then some add
    else parentWalk keys pfx fuel (dirname dn)
      (if dn ∈ keys ∨ dn ∈ add then add else add ++ [dn])

/-- The chain of proper ancestors of a directory visited by repeated
`os.path.dirname` extraction, stopping on reaching the operating prefix or the
empty path (fuel-based, like `parentWalk`). -/
def ancChain (pfx : Str) : Nat → Str → Option (List Str)
  | 0, _ => none
  | fuel + 1, dn =>
    if dn = [] ∨ dn = pfx then some []
    else (ancChain pfx fuel (dirname dn)).map (fun ch => dn :: ch)

/-- The `for k in files.keys()` scan of `fill_missing_parent_directories`:
run the ancestor walk of each key in turn, threading the scheduled-additions
list `add` through. -/
def collectMissing (keys : List Str) (pfx : Str) (ks : List Str) (add₀ : List Str) :
    Option (List Str) :=
  ks.foldl
    (fun acc k => acc.bind (fun add =>
      parentWalk keys pfx ((dirname k).length + 1) (dirname k) add))
    (some add₀)

/-- `fill_missing_parent_directories(files, prefix)`: collect the missing
ancestor directories of every key (against the original dict, which Python
does not mutate until after the scan), append the prefix itself when absent,
then assign `files[k] = []` for each collected directory.  Returns `none` when
one of the ancestor walks diverges (which the Python code would too). -/
def fill_missing_parent_directories (files : Dict (List ObjectRecord)) (pfx : Str) :
    Option (Dict (List ObjectRecord)) :=
  match collectMissing (keysOf files) pfx (keysOf files) [] with
  | none => none
  | some add =>
    let add' := if pfx ∈ keysOf files then add else add ++ [pfx]
    some (add'.foldl (fun fs k => dictSet fs k []) files)

/-- `s.strip('"')`: drop every leading and trailing double-quote character. -/
def stripQuotes (s : Str) : Str :=
  ((s.dropWhile (fun c => c = '"')).reverse.dropWhile (fun c => c = '"')).reverse

/-- The storage key of a directory's listing object:
`'{}/index.html'.format(d) if d else 'index.html'`. -/
def indexKey (d : Str) : Str :=
  if d = [] then "index.html".data else d ++ "/index.html".data

/-- The invalidation path of a directory: `'/{}/'.format(d) if d else '/'`. -/
def invPath (d : Str) : Str :=
  if d = [] then "/".data else "/".data ++ d ++ "/".data

/-- `set.add`: append unless already present (membership is all that matters;
the list keeps the insertion order for concreteness). -/
def setAdd (s : List Str) (x : Str) : List Str := if x ∈ s then s else s ++ [x]

/-- The skip test of the reconcile loop: `d` already has a listing object and
its ETag, quotes stripped, equals the hex digest of the freshly rendered body
(`continue` branch). -/
def skipsPut (md5hex : Str → Str) (indexes : Dict ObjectRecord)
    (files' : Dict (List ObjectRecord)) (d : Str) : Bool :=
  match dictGet indexes d with
  | none => false
  | some r => decide (stripQuotes r.etag = md5hex (generate_index_for files' d))

/-- Everything one run does to the outside world: whether it took the
`"No files found."` early exit, the deleted listing keys (in order), the
written listing objects as `(key, body)` pairs (in order), and the accumulated
invalidation set. -/
structure RunOutcome where
  nothingToDo : Bool
  deletes : List Str
  puts : List (Str × Str)
  invalidations : List Str
deriving DecidableEq, Repr

/-- The directories whose stale listing objects the delete pass removes:
`indexes` keys absent from the completed content mapping, in `indexes`
order. -/
def deleteDirs (indexes : Dict ObjectRecord) (files' : Dict (List ObjectRecord)) :
    List Str :=
  (keysOf indexes).filter (fun i => decide (¬ i ∈ keysOf files'))

/-- The directories the create/update pass writes: completed-mapping keys
whose skip test fails, in mapping order. -/
def putDirs (md5hex : Str → Str) (indexes : Dict ObjectRecord)
    (files' : Dict (List ObjectRecord)) : List Str :=
  (keysOf files').filter (fun d => ! skipsPut md5hex indexes files' d)

/-- The effects of the main path of the run (delete pass, then the
render/compare/write loop), given the completed content mapping. -/
def reconcileMain (md5hex : Str → Str) (indexes : Dict ObjectRecord)
    (files' : Dict (List ObjectRecord)) : RunOutcome :=
  ⟨false,
   (deleteDirs indexes files').map indexKey,
   (putDirs md5hex indexes files').map (fun d => (indexKey d, generate_index_for files' d)),
   ((deleteDirs indexes files' ++ putDirs md5hex indexes files').map invPath).foldl setAdd []⟩

/-- The `__main__` reconciliation, after `split_bucket_contents`: exit early
when `files` is empty; otherwise complete the parent directories, delete the
listing of every `indexes` directory absent from the completed mapping, then
for every completed-mapping directory render its listing and write it unless
the skip test holds; every delete or write also registers the directory's
invalidation path.  `none` models a diverging
`fill_missing_parent_directories`. -/
def reconcile (md5hex : Str → Str) (indexes : Dict ObjectRecord)
    (files : Dict (List ObjectRecord)) (pfx : Str) : Option RunOutcome :=
  if files = [] then some ⟨true, [], [], []⟩
  else
    match fill_missing_parent_directories files pfx with
    | none => none
    | some files' => some (reconcileMain md5hex indexes files')

/-- The whole run on an already-drained enumeration result. -/
def runFromRecords (md5hex : Str → Str) (records : List ObjectRecord) (pfx : Str) :
    Option RunOutcome :=
  let p := split_bucket_contents records
  reconcile md5hex p.1 p.2 pfx

/-- Key order of bucket listings (S3 returns keys in ascending UTF-8 order). -/
def recordKeyLe (o₁ o₂ : ObjectRecord) : Prop := strLeB o₁.key o₂.key = true

instance : DecidableRel recordKeyLe := fun o₁ o₂ =>
  show Decidable (strLeB o₁.key o₂.key = true) from inferInstance

/-- One page of a `list_objects_v2` response, with the fields the program
reads.  An empty `contents` models a response without a `Contents` member. -/
structure ListPage where
  contents : List ObjectRecord
  isTruncated : Bool
  nextToken : Str
deriving Repr

/-- Modelled from the spec: the external storage listing collaborator
(`Enumerate`, spec section 6), i.e. S3 `ListObjectsV2` with its documented
semantics.  Results come in ascending key order; the `Prefix` filter applies
only when the request carries it; a continuation token is an opaque position
and resumes strictly after the last key already delivered; `IsTruncated`
reports whether more keys match the present request's filters. -/
def list_objects_v2 (bucketObjects : List ObjectRecord) (pageSize : Nat)
    (pfxFilter : Option Str) (token : Option Str) : ListPage :=
  let ordered := List.insertionSort recordKeyLe bucketObjects
  let sel := ordered.filter (fun o =>
    (match pfxFilter with | some p => strStarts p o.key | none => true) &&
    (match token with | some t => strLtB t o.key | none => true))
  ⟨sel.take pageSize, decide (pageSize < sel.length),
   ((sel.take pageSize).map (fun o => o.key)).getLastD []⟩

/-- The `while True` page loop of `get_complete_bucket`: stop on a page with no
contents, yield the page, stop when not truncated, and otherwise continue —
passing only the continuation token, not the prefix, exactly as the source
does.  Fuel-based; the caller supplies more fuel than there are objects. -/
def pageLoop (bucketObjects : List ObjectRecord) (pageSize : Nat) :
    Nat → ListPage → List ObjectRecord
  | 0, _ => []
  | fuel + 1, r =>
    if r.contents = [] then []
    else r.contents ++
      (if r.isTruncated then
        pageLoop bucketObjects pageSize fuel
          (list_objects_v2 bucketObjects pageSize none (some r.nextToken))
       else [])

/-- `get_complete_bucket(bucket, prefix)` over the modelled listing API: the
first request carries the prefix (when non-empty); every continuation request
carries only the token. -/
def get_complete_bucket (bucketObjects : List ObjectRecord) (pageSize : Nat)
    (pfx : Str) : List ObjectRecord :=
  pageLoop bucketObjects pageSize (bucketObjects.length + 1)
    (if pfx = [] then list_objects_v2 bucketObjects pageSize none none
     else list_objects_v2 bucketObjects pageSize (some pfx) none)

/-- A sample enumeration record with the given key (fixed timestamp, size and
quoted ETag), for concrete test inputs. -/
def sampleRec (k : Str) : ObjectRecord := ⟨k, ⟨2020, 1, 2, 3, 4⟩, 5, "\"e\"".data⟩

/-- Concrete content mapping with a single root file, for witnesses. -/
def wFiles1 : Dict (List ObjectRecord) := [([], [sampleRec "b.txt".data])]

/-- Concrete listing index whose root entry's ETag already equals the body the
run would render (under the identity digest model), for witnesses. -/
def wIndexes1 : Dict ObjectRecord :=
  [([], ⟨"index.html".data, ⟨2020, 1, 2, 3, 4⟩, 5, generate_index_for wFiles1 []⟩)]

/-- Concrete content mapping with a root file `a!` and a subdirectory `a`,
whose display names `a!` and `a/` order differently than the bare names. -/
def exBangFiles : Dict (List ObjectRecord) :=
  [([], [sampleRec "a!".data]), ("a".data, [sampleRec "a/x".data])]

/-- Concrete content mapping with root files `b.txt`, `c.txt` and a
subdirectory `a`, the spec's sort example. -/
def exSortFiles : Dict (List ObjectRecord) :=
  [([], [sampleRec "b.txt".data, sampleRec "c.txt".data]), ("a".data, [sampleRec "a/x".data])]

/-- Concrete listing index holding one stale directory (no content under
`x`), for witnesses of the delete pass. -/
def wIndexesX : Dict ObjectRecord := [("x".data, sampleRec "x/index.html".data)]

/-- Run outcome of reconciling `wIndexesX` against `wFiles1`: one stale delete
and one fresh root write. -/
def wRunRes : RunOutcome :=
  ⟨false, ["x/index.html".data],
   [("index.html".data, generate_index_for wFiles1 [])],
   ["/x/".data, "/".data]⟩

/-- Concrete listing index holding one stale `photos/2019` listing. -/
def wIndexesStale : Dict ObjectRecord :=
  [("photos/2019".data, sampleRec "photos/2019/index.html".data)]

/-- Two content mappings that disagree only outside the root directory's own
record list and subdirectory set, for the determinism witness. -/
def wRender1 : Dict (List ObjectRecord) := [([], []), ("a".data, [sampleRec "a/x".data])]

/-- Companion mapping to `wRender1`; see there. -/
def wRender2 : Dict (List ObjectRecord) := [([], []), ("a".data, [])]

/-- Concrete content mapping with one nested key, for the completion witness. -/
def wFillFiles : Dict (List ObjectRecord) := [("a/b".data, [sampleRec "a/b/f.txt".data])]

/-- The mapping `wFillFiles` completes to: the original key, its ancestor `a`,
and the root. -/
def wFilled : Dict (List ObjectRecord) :=
  [("a/b".data, [sampleRec "a/b/f.txt".data]), ("a".data, []), ([], [])]

/-- Concrete bucket whose prefix-matching keys span two result pages, with a
further key after the prefix range. -/
def exBucket : List ObjectRecord :=
  [sampleRec "p/1".data, sampleRec "p/2".data, sampleRec "p/3".data, sampleRec "z/1".data]

end S3IB

namespace S3IB

theorem pathSplit_ab : pathSplit "a/b/c.txt".data = ("a/b".data, "c.txt".data) := by decide

theorem pathSplit_root : pathSplit "c.txt".data = ([], "c.txt".data) := by decide

theorem pathSplit_slash : dirname "/a".data = "/".data := by decide

/-! Dictionary, set and path-key helper lemmas. -/

theorem keysOf_nil {α : Type} : keysOf ([] : Dict α) = [] := rfl

theorem dictGet_cons_self {α : Type} (k : Str) (v : α) (rest : Dict α) :
    dictGet ((k, v) :: rest) k = some v := by
  simp [dictGet]

theorem dictGet_cons_ne {α : Type} {k q : Str} (v : α) (rest : Dict α) (h : ¬ k = q) :
    dictGet ((k, v) :: rest) q = dictGet rest q := by
  simp [dictGet, h]

theorem dictSet_cons_self {α : Type} (k : Str) (w v : α) (rest : Dict α) :
    dictSet ((k, w) :: rest) k v = (k, v) :: rest := by
  simp [dictSet]

theorem dictSet_cons_ne {α : Type} {k q : Str} (w v : α) (rest : Dict α) (h : ¬ k = q) :
    dictSet ((k, w) :: rest) q v = (k, w) :: dictSet rest q v := by
  simp [dictSet, h]

theorem keysOf_cons {α : Type} (k : Str) (v : α) (rest : Dict α) :
    keysOf ((k, v) :: rest) = k :: keysOf rest := rfl

theorem dictGet_isSome_iff {α : Type} (d : Dict α) (q : Str) :
    (dictGet d q).isSome = true ↔ q ∈ keysOf d := by
  induction d with
  | nil =>
    constructor
    · intro h
      exact absurd h (by simp [dictGet])
    · intro h
      exact (List.not_mem_nil q h).elim
  | cons p rest ih =>
    obtain ⟨k, v⟩ := p
    rw [keysOf_cons]
    by_cases h : k = q
    · subst h
      rw [dictGet_cons_self]
      constructor
      · intro _
        exact List.mem_cons_self _ _
      · intro _
        rfl
    · rw [dictGet_cons_ne v rest h]
      rw [ih]
      constructor
      · intro h'
        exact List.mem_cons_of_mem _ h'
      · intro h'
        rcases List.mem_cons.mp h' with rfl | h'
        · exact absurd rfl h
        · exact h'

theorem mem_keys_of_dictGet {α : Type} {d : Dict α} {q : Str} {v : α}
    (h : dictGet d q = some v) : q ∈ keysOf d :=
  (dictGet_isSome_iff d q).mp (by rw [h]; rfl)

theorem dictGet_some_of_mem_keys {α : Type} {d : Dict α} {q : Str}
    (h : q ∈ keysOf d) : ∃ v, dictGet d q = some v := by
  have := (dictGet_isSome_iff d q).mpr h
  cases hv : dictGet d q with
  | none => rw [hv] at this; exact absurd this (by simp)
  | some v => exact ⟨v, rfl⟩

theorem mem_keys_dictSet {α : Type} (d : Dict α) (q x : Str) (v : α) :
    x ∈ keysOf (dictSet d q v) ↔ x ∈ keysOf d ∨ x = q := by
  induction d with
  | nil =>
    constructor
    · intro h
      rcases List.mem_cons.mp h with rfl | h
      · exact Or.inr rfl
      · exact (List.not_mem_nil x h).elim
    · rintro (h | rfl)
      · exact (List.not_mem_nil x h).elim
      · exact List.mem_cons_self _ _
  | cons p rest ih =>
    obtain ⟨k, w⟩ := p
    by_cases h : k = q
    · subst h
      rw [dictSet_cons_self]
      rw [keysOf_cons, keysOf_cons]
      constructor
      · intro h'
        exact Or.inl h'
      · rintro (h' | rfl)
        · exact h'
        · exact List.mem_cons_self _ _
    · rw [dictSet_cons_ne w v rest h]
      rw [keysOf_cons, keysOf_cons]
      constructor
      · intro h'
        rcases List.mem_cons.mp h' with rfl | h'
        · exact Or.inl (List.mem_cons_self _ _)
        · rcases ih.mp h' with h'' | h''
          · exact Or.inl (List.mem_cons_of_mem _ h'')
          · exact Or.inr h''
      · rintro (h' | rfl)
        · rcases List.mem_cons.mp h' with rfl | h'
          · exact List.mem_cons_self _ _
          · exact List.mem_cons_of_mem _ (ih.mpr (Or.inl h'))
        · exact List.mem_cons_of_mem _ (ih.mpr (Or.inr rfl))

theorem mem_keys_fillFold (l : List Str) (fs : Dict (List ObjectRecord)) (x : Str) :
    x ∈ keysOf (l.foldl (fun a k => dictSet a k []) fs) ↔ x ∈ keysOf fs ∨ x ∈ l := by
  induction l generalizing fs with
  | nil =>
    rw [List.foldl_nil]
    constructor
    · exact Or.inl
    · rintro (h | h)
      · exact h
      · exact (List.not_mem_nil x h).elim
  | cons k rest ih =>
    rw [List.foldl_cons, ih, mem_keys_dictSet, List.mem_cons]
    tauto

theorem mem_foldl_setAdd (l : List Str) (init : List Str) (x : Str) :
    x ∈ l.foldl setAdd init ↔ x ∈ init ∨ x ∈ l := by
  induction l generalizing init with
  | nil => simp
  | cons y rest ih =>
    simp only [List.foldl_cons, ih, List.mem_cons]
    unfold setAdd
    by_cases hy : y ∈ init
    · rw [if_pos hy]
      constructor
      · rintro (h | h)
        · exact Or.inl h
        · exact Or.inr (Or.inr h)
      · rintro (h | rfl | h)
        · exact Or.inl h
        · exact Or.inl hy
        · exact Or.inr h
    · rw [if_neg hy]
      simp only [List.mem_append, List.mem_singleton, or_assoc]

theorem indexKey_inj {a b : Str} (h : indexKey a = indexKey b) : a = b := by
  unfold indexKey at h
  by_cases ha : a = [] <;> by_cases hb : b = []
  · rw [ha, hb]
  · exfalso
    rw [if_pos ha, if_neg hb] at h
    have hlen := congrArg List.length h
    rw [List.length_append, show ("index.html".data : Str).length = 10 from by decide,
      show ("/index.html".data : Str).length = 11 from by decide] at hlen
    omega
  · exfalso
    rw [if_neg ha, if_pos hb] at h
    have hlen := congrArg List.length h
    rw [List.length_append, show ("index.html".data : Str).length = 10 from by decide,
      show ("/index.html".data : Str).length = 11 from by decide] at hlen
    omega
  · rw [if_neg ha, if_neg hb] at h
    exact List.append_cancel_right h

theorem invPath_inj {a b : Str} (h : invPath a = invPath b) : a = b := by
  unfold invPath at h
  by_cases ha : a = [] <;> by_cases hb : b = []
  · rw [ha, hb]
  · exfalso
    rw [if_pos ha, if_neg hb] at h
    have hlen := congrArg List.length h
    rw [List.length_append, List.length_append,
      show ("/".data : Str).length = 1 from by decide] at hlen
    omega
  · exfalso
    rw [if_neg ha, if_pos hb] at h
    have hlen := congrArg List.length h
    rw [List.length_append, List.length_append,
      show ("/".data : Str).length = 1 from by decide] at hlen
    omega
  · rw [if_neg ha, if_neg hb] at h
    exact List.append_cancel_left (List.append_cancel_right h)

theorem mem_basename_ne_slash (p : Str) : ∀ c ∈ basename p, c ≠ '/' := by
  intro c hc
  unfold basename pathSplit at hc
  simp only at hc
  rw [List.mem_reverse] at hc
  have := List.mem_takeWhile_imp hc
  simpa using this

theorem takeWhile_all_append {α : Type} (p : α → Bool) (xs ys : List α) (y : α)
    (hxs : ∀ x ∈ xs, p x = true) (hy : p y = false) :
    (xs ++ y :: ys).takeWhile p = xs := by
  induction xs with
  | nil => simp [List.takeWhile, hy]
  | cons a rest ih =>
    have ha : p a = true := hxs a (by simp)
    simp only [List.cons_append, List.takeWhile_cons, ha, if_true]
    rw [ih (fun x hx => hxs x (by simp [hx]))]

theorem takeWhile_all {α : Type} (p : α → Bool) (xs : List α)
    (hxs : ∀ x ∈ xs, p x = true) : xs.takeWhile p = xs := by
  induction xs with
  | nil => rfl
  | cons a rest ih =>
    simp only [List.takeWhile_cons, hxs a (by simp), if_true]
    rw [ih (fun x hx => hxs x (by simp [hx]))]

theorem basename_rev (p : Str) :
    basename p = (p.reverse.takeWhile (fun c => c ≠ '/')).reverse := rfl

theorem basename_append (d s : Str) (hs : ∀ c ∈ s, c ≠ '/') :
    basename (d ++ '/' :: s) = s := by
  rw [basename_rev, List.reverse_append]
  have h1 : List.reverse ('/' :: s) = s.reverse ++ ['/'] := by simp
  rw [h1, List.append_assoc, List.singleton_append]
  rw [takeWhile_all_append _ s.reverse d.reverse '/'
      (fun x hx => by
        have hxs : x ∈ s := List.mem_reverse.mp hx
        simpa using hs x hxs)
      (by simp)]
  simp

theorem basename_indexKey (d : Str) : basename (indexKey d) = "index.html".data := by
  unfold indexKey
  by_cases hd : d = []
  · rw [if_pos hd]
    decide
  · rw [if_neg hd]
    have : ("/index.html".data : Str) = '/' :: "index.html".data := by decide
    rw [this, basename_append]
    intro c hc hcontra
    subst hcontra
    exact absurd hc (by decide)

/-! Ancestor-completion lemmas. -/

theorem ancChain_unique (pfx : Str) :
    ∀ f₁ f₂ dn ch₁ ch₂, ancChain pfx f₁ dn = some ch₁ → ancChain pfx f₂ dn = some ch₂ →
      ch₁ = ch₂ := by
  intro f₁
  induction f₁ with
  | zero =>
    intro f₂ dn ch₁ ch₂ h₁ _
    exact absurd h₁ (by simp [ancChain])
  | succ f ih =>
    intro f₂ dn ch₁ ch₂ h₁ h₂
    cases f₂ with
    | zero => exact absurd h₂ (by simp [ancChain])
    | succ f₂' =>
      rw [ancChain] at h₁ h₂
      by_cases hstop : dn = [] ∨ dn = pfx
      · rw [if_pos hstop] at h₁ h₂
        rw [← Option.some.inj h₁, ← Option.some.inj h₂]
      · rw [if_neg hstop] at h₁ h₂
        cases hr₁ : ancChain pfx f (dirname dn) with
        | none => rw [hr₁] at h₁; exact absurd h₁ (by simp)
        | some ch₁' =>
          cases hr₂ : ancChain pfx f₂' (dirname dn) with
          | none => rw [hr₂] at h₂; exact absurd h₂ (by simp)
          | some ch₂' =>
            rw [hr₁] at h₁
            rw [hr₂] at h₂
            rw [← Option.some.inj h₁, ← Option.some.inj h₂,
              ih f₂' (dirname dn) ch₁' ch₂' hr₁ hr₂]

theorem ancChain_elem (pfx : Str) :
    ∀ f dn ch, ancChain pfx f dn = some ch → ∀ a ∈ ch,
      ∃ f' ch', ancChain pfx f' (dirname a) = some ch' ∧ ∀ x ∈ ch', x ∈ ch := by
  intro f
  induction f with
  | zero =>
    intro dn ch h
    exact absurd h (by simp [ancChain])
  | succ f ih =>
    intro dn ch h a ha
    rw [ancChain] at h
    by_cases hstop : dn = [] ∨ dn = pfx
    · rw [if_pos hstop] at h
      rw [← Option.some.inj h] at ha
      exact (List.not_mem_nil a ha).elim
    · rw [if_neg hstop] at h
      cases hr : ancChain pfx f (dirname dn) with
      | none => rw [hr] at h; exact absurd h (by simp)
      | some ch₀ =>
        rw [hr] at h
        have hch : ch = dn :: ch₀ := (Option.some.inj h).symm
        subst hch
        rcases List.mem_cons.mp ha with rfl | ha'
        · exact ⟨f, ch₀, hr, fun x hx => List.mem_cons_of_mem _ hx⟩
        · obtain ⟨f', ch', h', hsub⟩ := ih (dirname dn) ch₀ hr a ha'
          exact ⟨f', ch', h', fun x hx => List.mem_cons_of_mem _ (hsub x hx)⟩

theorem parentWalk_sound (keys : List Str) (pfx : Str) :
    ∀ fuel dn add add', parentWalk keys pfx fuel dn add = some add' →
      ∃ ch, ancChain pfx fuel dn = some ch ∧
        (∀ x ∈ add, x ∈ add') ∧
        (∀ a ∈ ch, a ∈ keys ∨ a ∈ add') ∧
        (∀ x ∈ add', x ∈ add ∨ x ∈ ch) := by
  intro fuel
  induction fuel with
  | zero =>
    intro dn add add' h
    exact absurd h (by simp [parentWalk])
  | succ f ih =>
    intro dn add add' h
    rw [parentWalk] at h
    by_cases hstop : dn = [] ∨ dn = pfx
    · rw [if_pos hstop] at h
      have hadd : add' = add := (Option.some.inj h).symm
      subst hadd
      refine ⟨[], by rw [ancChain, if_pos hstop], fun x hx => hx, ?_, fun x hx => Or.inl hx⟩
      intro a ha
      exact (List.not_mem_nil a ha).elim
    · rw [if_neg hstop] at h
      obtain ⟨ch, hch, hmono, hcov, hnew⟩ :=
        ih (dirname dn) (if dn ∈ keys ∨ dn ∈ add then add else add ++ [dn]) add' h
      refine ⟨dn :: ch, ?_, ?_, ?_, ?_⟩
      · rw [ancChain, if_neg hstop, hch]
        rfl
      · intro x hx
        apply hmono
        by_cases hc : dn ∈ keys ∨ dn ∈ add
        · rw [if_pos hc]
          exact hx
        · rw [if_neg hc]
          exact List.mem_append_left _ hx
      · intro a ha
        rcases List.mem_cons.mp ha with rfl | ha'
        · by_cases hk : a ∈ keys
          · exact Or.inl hk
          · refine Or.inr (hmono a ?_)
            by_cases hmem : a ∈ add
            · rw [if_pos (Or.inr hmem)]
              exact hmem
            · have hc : ¬ (a ∈ keys ∨ a ∈ add) := by
                rintro (h' | h')
                · exact hk h'
                · exact hmem h'
              rw [if_neg hc]
              exact List.mem_append_right _ (List.mem_singleton.mpr rfl)
        · exact hcov a ha'
      · intro x hx
        rcases hnew x hx with hx₁ | hx₂
        · by_cases hc : dn ∈ keys ∨ dn ∈ add
          · rw [if_pos hc] at hx₁
            exact Or.inl hx₁
          · rw [if_neg hc] at hx₁
            rcases List.mem_append.mp hx₁ with hx₃ | hx₃
            · exact Or.inl hx₃
            · exact Or.inr (List.mem_cons.mpr (Or.inl (List.mem_singleton.mp hx₃)))
        · exact Or.inr (List.mem_cons_of_mem _ hx₂)

theorem collectMissing_none (keys : List Str) (pfx : Str) (ks : List Str) :
    ks.foldl
      (fun acc k => acc.bind (fun add =>
        parentWalk keys pfx ((dirname k).length + 1) (dirname k) add))
      none = none := by
  induction ks with
  | nil => rfl
  | cons k rest ih => rw [List.foldl_cons]; exact ih

theorem collectMissing_cons (keys : List Str) (pfx : Str) (k : Str) (rest : List Str)
    (add₀ : List Str) :
    collectMissing keys pfx (k :: rest) add₀ =
      (parentWalk keys pfx ((dirname k).length + 1) (dirname k) add₀).bind
        (fun add₁ => collectMissing keys pfx rest add₁) := by
  unfold collectMissing
  rw [List.foldl_cons]
  show List.foldl
      (fun acc k => acc.bind (fun add =>
        parentWalk keys pfx ((dirname k).length + 1) (dirname k) add))
      (parentWalk keys pfx ((dirname k).length + 1) (dirname k) add₀) rest = _
  cases hp : parentWalk keys pfx ((dirname k).length + 1) (dirname k) add₀ with
  | none => exact collectMissing_none keys pfx rest
  | some add₁ => rfl

theorem collectMissing_sound (keys : List Str) (pfx : Str) :
    ∀ ks add₀ A, collectMissing keys pfx ks add₀ = some A →
      (∀ x ∈ add₀, x ∈ A) ∧
      (∀ k ∈ ks, ∃ f ch, ancChain pfx f (dirname k) = some ch ∧
        ∀ a ∈ ch, a ∈ keys ∨ a ∈ A) ∧
      (∀ x ∈ A, x ∈ add₀ ∨ ∃ f ch k, k ∈ ks ∧ ancChain pfx f (dirname k) = some ch ∧ x ∈ ch) := by
  intro ks
  induction ks with
  | nil =>
    intro add₀ A h
    have hA : A = add₀ := (Option.some.inj h).symm
    subst hA
    refine ⟨fun x hx => hx, ?_, fun x hx => Or.inl hx⟩
    intro k hk
    exact (List.not_mem_nil k hk).elim
  | cons k rest ih =>
    intro add₀ A h
    rw [collectMissing_cons] at h
    cases h₁ : parentWalk keys pfx ((dirname k).length + 1) (dirname k) add₀ with
    | none =>
      rw [h₁] at h
      exact absurd h (by simp)
    | some add₁ =>
      rw [h₁] at h
      have h' : collectMissing keys pfx rest add₁ = some A := h
      obtain ⟨ch, hch, hmono, hcov, hnew⟩ :=
        parentWalk_sound keys pfx ((dirname k).length + 1) (dirname k) add₀ add₁ h₁
      obtain ⟨hmono', hks, hnew'⟩ := ih add₁ A h'
      refine ⟨fun x hx => hmono' x (hmono x hx), ?_, ?_⟩
      · intro k' hk'
        rcases List.mem_cons.mp hk' with rfl | hk''
        · exact ⟨_, ch, hch, fun a ha =>
            (hcov a ha).elim Or.inl (fun h' => Or.inr (hmono' a h'))⟩
        · exact hks k' hk''
      · intro x hx
        rcases hnew' x hx with hx₁ | ⟨f, ch', k', hk', hch', hx₂⟩
        · rcases hnew x hx₁ with hx₃ | hx₃
          · exact Or.inl hx₃
          · exact Or.inr ⟨_, ch, k, List.mem_cons_self _ _, hch, hx₃⟩
        · exact Or.inr ⟨f, ch', k', List.mem_cons_of_mem _ hk', hch', hx₂⟩

/-- C2 (amended): for every content mapping and operating prefix, when
`fill_missing_parent_directories` returns, every proper ancestor directory —
by repeated `dirname` extraction, stopping at the prefix or the empty path —
of every key of the resulting mapping other than the prefix itself is a key of
the resulting mapping, and the prefix/root key is always present.  (The
ancestors of the prefix key itself are completed only when the prefix was
already a key of the original mapping.) -/
theorem fill_completes_ancestors (files : Dict (List ObjectRecord)) (pfx : Str)
    (files' : Dict (List ObjectRecord))
    (h : fill_missing_parent_directories files pfx = some files') :
    (∀ k ∈ keysOf files', k ≠ pfx →
      ∀ f ch, ancChain pfx f (dirname k) = some ch → ∀ a ∈ ch, a ∈ keysOf files') ∧
    pfx ∈ keysOf files' := by
  unfold fill_missing_parent_directories at h
  cases hA : collectMissing (keysOf files) pfx (keysOf files) [] with
  | none =>
    rw [hA] at h
    exact absurd h (by simp)
  | some A =>
    rw [hA] at h
    have hfe : files' =
        (if pfx ∈ keysOf files then A else A ++ [pfx]).foldl
          (fun fs k => dictSet fs k []) files := (Option.some.inj h).symm
    obtain ⟨-, hks, hnew⟩ := collectMissing_sound (keysOf files) pfx (keysOf files) [] A hA
    set addAll := if pfx ∈ keysOf files then A else A ++ [pfx] with haddAll
    have hmem : ∀ x, x ∈ keysOf files' ↔ x ∈ keysOf files ∨ x ∈ addAll := by
      intro x
      rw [hfe]
      exact mem_keys_fillFold addAll files x
    have hAsub : ∀ x ∈ A, x ∈ addAll := by
      intro x hx
      rw [haddAll]
      by_cases hc : pfx ∈ keysOf files
      · rw [if_pos hc]
        exact hx
      · rw [if_neg hc]
        exact List.mem_append_left _ hx
    have hcov : ∀ (f : Nat) (ch : List Str) (k : Str), k ∈ keysOf files →
        ancChain pfx f (dirname k) = some ch → ∀ a ∈ ch, a ∈ keysOf files' := by
      intro f ch k hk hch a ha
      obtain ⟨f₀, ch₀, hch₀, hcov₀⟩ := hks k hk
      have heq : ch = ch₀ := ancChain_unique pfx f f₀ (dirname k) ch ch₀ hch hch₀
      subst heq
      rcases hcov₀ a ha with h' | h'
      · exact (hmem a).mpr (Or.inl h')
      · exact (hmem a).mpr (Or.inr (hAsub a h'))
    constructor
    · intro k hk hkp f ch hch a ha
      rcases (hmem k).mp hk with hk₁ | hk₂
      · exact hcov f ch k hk₁ hch a ha
      · have hkA : k ∈ A := by
          rw [haddAll] at hk₂
          by_cases hc : pfx ∈ keysOf files
          · rw [if_pos hc] at hk₂
            exact hk₂
          · rw [if_neg hc] at hk₂
            rcases List.mem_append.mp hk₂ with h' | h'
            · exact h'
            · exact absurd (List.mem_singleton.mp h') hkp
        rcases hnew k hkA with h' | ⟨f₁, ch₁, k₁, hk₁, hch₁, hkch⟩
        · exact (List.not_mem_nil k h').elim
        · obtain ⟨f₂, ch₂, hch₂, hsub₂⟩ := ancChain_elem pfx f₁ (dirname k₁) ch₁ hch₁ k hkch
          have heq : ch = ch₂ := ancChain_unique pfx f f₂ (dirname k) ch ch₂ hch hch₂
          subst heq
          exact hcov f₁ ch₁ k₁ hk₁ hch₁ a (hsub₂ a ha)
    · by_cases hc : pfx ∈ keysOf files
      · exact (hmem pfx).mpr (Or.inl hc)
      · refine (hmem pfx).mpr (Or.inr ?_)
        rw [haddAll, if_neg hc]
        exact List.mem_append_right _ (List.mem_singleton.mpr rfl)

/-- C2 witness: on the concrete mapping with key `a/b` and the root prefix,
the completed mapping contains the ancestor `a` and the root key. -/
theorem fill_completes_ancestors_witness :
    "a".data ∈ keysOf wFilled ∧ ([] : Str) ∈ keysOf wFilled :=
  ⟨(fill_completes_ancestors wFillFiles [] wFilled (by decide)).1
      "a/b".data (by decide) (by decide) 2 ["a".data] (by decide) "a".data (by decide),
   (fill_completes_ancestors wFillFiles [] wFilled (by decide)).2⟩

/-- C2 counterexample: with operating prefix `p/q` and the single content key
`p/q/x`, completion adds the prefix itself but not the prefix's own ancestor
`p`, although `p/q` is a key of the resulting mapping with ancestor chain
`[p]` — so the claim as stated (ancestor closure for every key, prefix
included) fails here. -/
theorem fill_prefix_ancestors_cex :
    fill_missing_parent_directories
        [("p/q/x".data, [sampleRec "p/q/x/f.txt".data])] "p/q".data
      = some [("p/q/x".data, [sampleRec "p/q/x/f.txt".data]), ("p/q".data, [])]
    ∧ "p/q".data ∈ keysOf [("p/q/x".data, [sampleRec "p/q/x/f.txt".data]), ("p/q".data, [])]
    ∧ ancChain "p/q".data 2 (dirname "p/q".data) = some ["p".data]
    ∧ ¬ "p".data ∈ keysOf [("p/q/x".data, [sampleRec "p/q/x/f.txt".data]), ("p/q".data, [])] := by
  exact ⟨by decide, by decide, by decide, by decide⟩

/-! Reconciliation lemmas and claims about the run. -/

theorem reconcileMain_deletes (m : Str → Str) (i : Dict ObjectRecord)
    (f : Dict (List ObjectRecord)) :
    (reconcileMain m i f).deletes = (deleteDirs i f).map indexKey := rfl

theorem reconcileMain_puts (m : Str → Str) (i : Dict ObjectRecord)
    (f : Dict (List ObjectRecord)) :
    (reconcileMain m i f).puts =
      (putDirs m i f).map (fun d => (indexKey d, generate_index_for f d)) := rfl

theorem reconcileMain_invs (m : Str → Str) (i : Dict ObjectRecord)
    (f : Dict (List ObjectRecord)) :
    (reconcileMain m i f).invalidations =
      ((deleteDirs i f ++ putDirs m i f).map invPath).foldl setAdd [] := rfl

theorem reconcile_main_eq (md5hex : Str → Str) (indexes : Dict ObjectRecord)
    (files files' : Dict (List ObjectRecord)) (pfx : Str)
    (hne : ¬ files = [])
    (hfill : fill_missing_parent_directories files pfx = some files') :
    reconcile md5hex indexes files pfx = some (reconcileMain md5hex indexes files') := by
  unfold reconcile
  rw [if_neg hne, hfill]

theorem countP_map_eq_one {α β : Type} [DecidableEq β] (f : α → β)
    (hinj : ∀ a b, f a = f b → a = b) :
    ∀ (l : List α) (a : α), l.Nodup → a ∈ l →
      (l.map f).countP (fun b => decide (b = f a)) = 1 := by
  intro l
  induction l with
  | nil =>
    intro a _ ha
    cases ha
  | cons x rest ih =>
    intro a hnd ha
    rw [List.map_cons, List.countP_cons]
    rcases List.mem_cons.mp ha with rfl | ha'
    · have h0 : (rest.map f).countP (fun b => decide (b = f a)) = 0 := by
        rw [List.countP_eq_zero]
        intro b hb hc
        obtain ⟨y, hy, rfl⟩ := List.mem_map.mp hb
        have hya : y = a := hinj y a (of_decide_eq_true hc)
        subst hya
        exact (List.nodup_cons.mp hnd).1 hy
      rw [h0]
      simp
    · obtain ⟨hxr, hndr⟩ := List.nodup_cons.mp hnd
      have hxa : ¬ f x = f a := fun hc => hxr (by rw [hinj x a hc]; exact ha')
      rw [ih a hndr ha']
      simp [hxa]

/-- C7: a run over an enumeration that yields zero object records reports
nothing-to-do and terminates cleanly with no put, no delete and an empty
invalidation set. -/
theorem empty_enumeration_noop (md5hex : Str → Str) (pfx : Str) :
    runFromRecords md5hex [] pfx = some ⟨true, [], [], []⟩ := rfl

/-- C10: every storage mutation of a run — every delete and every put —
targets a key whose final path component is exactly `index.html`. -/
theorem mutations_target_listing_keys (md5hex : Str → Str) (indexes : Dict ObjectRecord)
    (files : Dict (List ObjectRecord)) (pfx : Str) (res : RunOutcome)
    (h : reconcile md5hex indexes files pfx = some res) :
    (∀ k ∈ res.deletes, basename k = "index.html".data) ∧
    (∀ p ∈ res.puts, basename p.1 = "index.html".data) := by
  unfold reconcile at h
  by_cases hne : files = []
  · rw [if_pos hne] at h
    have hres : res = ⟨true, [], [], []⟩ := (Option.some.inj h).symm
    subst hres
    exact ⟨fun k hk => (List.not_mem_nil k hk).elim,
           fun p hp => (List.not_mem_nil p hp).elim⟩
  · rw [if_neg hne] at h
    cases hfill : fill_missing_parent_directories files pfx with
    | none =>
      rw [hfill] at h
      exact absurd h (by simp)
    | some files' =>
      rw [hfill] at h
      have hres : res = reconcileMain md5hex indexes files' := (Option.some.inj h).symm
      subst hres
      constructor
      · intro k hk
        rw [reconcileMain_deletes] at hk
        obtain ⟨i, _, rfl⟩ := List.mem_map.mp hk
        exact basename_indexKey i
      · intro p hp
        rw [reconcileMain_puts] at hp
        obtain ⟨d, _, rfl⟩ := List.mem_map.mp hp
        exact basename_indexKey d

set_option maxRecDepth 8000 in
/-- C10 witness: on a concrete run with one stale delete and one root write,
both mutated keys have base name `index.html`. -/
theorem mutations_target_listing_keys_witness :
    (∀ k ∈ wRunRes.deletes, basename k = "index.html".data) ∧
    (∀ p ∈ wRunRes.puts, basename p.1 = "index.html".data) :=
  mutations_target_listing_keys (fun s => s) wIndexesX wFiles1 [] wRunRes (by decide)

/-- C1: a second reconciliation run over the unchanged content mapping, whose
listing index holds exactly the listing objects present after the first run
(one per completed directory, each with stored digest equal to the digest of
the freshly rendered body), performs zero puts, zero deletes, and ends with an
empty invalidation set. -/
theorem run_idempotent (md5hex : Str → Str) (indexes₂ : Dict ObjectRecord)
    (files files' : Dict (List ObjectRecord)) (pfx : Str)
    (hfill : fill_missing_parent_directories files pfx = some files')
    (hkeys : ∀ i, i ∈ keysOf indexes₂ ↔ i ∈ keysOf files')
    (hdig : ∀ d r, dictGet indexes₂ d = some r →
      stripQuotes r.etag = md5hex (generate_index_for files' d)) :
    ∃ res, reconcile md5hex indexes₂ files pfx = some res ∧
      res.puts = [] ∧ res.deletes = [] ∧ res.invalidations = [] := by
  by_cases hne : files = []
  · refine ⟨⟨true, [], [], []⟩, ?_, rfl, rfl, rfl⟩
    unfold reconcile
    rw [if_pos hne]
  · have hdel : deleteDirs indexes₂ files' = [] := by
      apply List.filter_eq_nil_iff.mpr
      intro i hi
      simp only [decide_eq_true_eq, Decidable.not_not]
      exact (hkeys i).mp hi
    have hput : putDirs md5hex indexes₂ files' = [] := by
      apply List.filter_eq_nil_iff.mpr
      intro d hd
      have hd₂ : d ∈ keysOf indexes₂ := (hkeys d).mpr hd
      obtain ⟨r, hr⟩ := dictGet_some_of_mem_keys hd₂
      have hsk : skipsPut md5hex indexes₂ files' d = true := by
        unfold skipsPut
        rw [hr]
        exact decide_eq_true (hdig d r hr)
      simp [hsk]
    refine ⟨reconcileMain md5hex indexes₂ files',
      reconcile_main_eq md5hex indexes₂ files files' pfx hne hfill, ?_, ?_, ?_⟩
    · rw [reconcileMain_puts, hput]
      rfl
    · rw [reconcileMain_deletes, hdel]
      rfl
    · rw [reconcileMain_invs, hdel, hput]
      rfl

set_option maxRecDepth 8000 in
/-- C1 witness: with the root content mapping `wFiles1` and a listing index
whose root entry carries the digest of the freshly rendered root listing, the
second run performs no mutation at all. -/
theorem run_idempotent_witness :
    ∃ res, reconcile (fun s => s) wIndexes1 wFiles1 [] = some res ∧
      res.puts = [] ∧ res.deletes = [] ∧ res.invalidations = [] := by
  refine run_idempotent (fun s => s) wIndexes1 wFiles1 wFiles1 [] (by decide)
    (fun i => Iff.rfl) ?_
  intro d r h
  rw [show wIndexes1 = [(([] : Str),
      ⟨"index.html".data, ⟨2020, 1, 2, 3, 4⟩, 5, generate_index_for wFiles1 []⟩)] from rfl] at h
  by_cases hd : ([] : Str) = d
  · cases hd
    rw [dictGet_cons_self] at h
    cases Option.some.inj h
    decide
  · rw [dictGet_cons_ne _ _ hd] at h
    exact absurd h (by simp [dictGet])

/-- C5: when a completed-mapping directory `d` has an existing listing whose
quote-stripped stored ETag equals the digest of the freshly rendered body, the
run makes no put for `d`'s listing key and does not add `d`'s path to the
invalidation set. -/
theorem digest_skip_no_write (md5hex : Str → Str) (indexes : Dict ObjectRecord)
    (files files' : Dict (List ObjectRecord)) (pfx d : Str) (r : ObjectRecord)
    (hne : ¬ files = [])
    (hfill : fill_missing_parent_directories files pfx = some files')
    (hd : d ∈ keysOf files')
    (hr : dictGet indexes d = some r)
    (hdig : stripQuotes r.etag = md5hex (generate_index_for files' d)) :
    ∃ res, reconcile md5hex indexes files pfx = some res ∧
      (∀ p ∈ res.puts, p.1 ≠ indexKey d) ∧ ¬ invPath d ∈ res.invalidations := by
  have hskip : skipsPut md5hex indexes files' d = true := by
    unfold skipsPut
    rw [hr]
    exact decide_eq_true hdig
  have hdnp : ¬ d ∈ putDirs md5hex indexes files' := by
    intro hmem
    have hpred := List.of_mem_filter hmem
    rw [hskip] at hpred
    exact absurd hpred (by simp)
  refine ⟨reconcileMain md5hex indexes files',
    reconcile_main_eq md5hex indexes files files' pfx hne hfill, ?_, ?_⟩
  · intro p hp hcontra
    rw [reconcileMain_puts] at hp
    obtain ⟨d', hd', hpd⟩ := List.mem_map.mp hp
    have h1 : p.1 = indexKey d' := by rw [← hpd]
    rw [h1] at hcontra
    have hdd : d' = d := indexKey_inj hcontra
    subst hdd
    exact hdnp hd'
  · intro hmem
    rw [reconcileMain_invs] at hmem
    rcases (mem_foldl_setAdd _ _ _).mp hmem with h' | h'
    · exact (List.not_mem_nil _ h').elim
    · obtain ⟨x, hx, hxe⟩ := List.mem_map.mp h'
      have hxd : x = d := invPath_inj hxe
      subst hxd
      rcases List.mem_append.mp hx with hx₁ | hx₂
      · unfold deleteDirs at hx₁
        exact absurd hd (of_decide_eq_true ((List.mem_filter.mp hx₁).2))
      · exact hdnp hx₂

set_option maxRecDepth 8000 in
/-- C5 witness: the root directory of `wFiles1`, whose stored listing already
carries the fresh digest, is skipped — no put for its key, no invalidation. -/
theorem digest_skip_no_write_witness :
    ∃ res, reconcile (fun s => s) wIndexes1 wFiles1 [] = some res ∧
      (∀ p ∈ res.puts, p.1 ≠ indexKey []) ∧ ¬ invPath [] ∈ res.invalidations :=
  digest_skip_no_write (fun s => s) wIndexes1 wFiles1 wFiles1 [] []
    ⟨"index.html".data, ⟨2020, 1, 2, 3, 4⟩, 5, generate_index_for wFiles1 []⟩
    (by decide) (by decide) (by decide) (by decide) (by decide)

/-- C3 (amended): on every run whose split content mapping is non-empty, for
every directory `i` present in the listing index but absent from the
post-completion content mapping, exactly one delete of the listing object at
`i`'s key is issued and `i`'s path joins the invalidation set.  (When the
content mapping is empty — e.g. the enumeration's only records are
`index.html` objects — the run exits early and issues no deletes at all.) -/
theorem stale_index_deleted (md5hex : Str → Str) (indexes : Dict ObjectRecord)
    (files files' : Dict (List ObjectRecord)) (pfx i : Str)
    (hne : ¬ files = [])
    (hfill : fill_missing_parent_directories files pfx = some files')
    (hnodup : (keysOf indexes).Nodup)
    (hi : i ∈ keysOf indexes)
    (hni : ¬ i ∈ keysOf files') :
    ∃ res, reconcile md5hex indexes files pfx = some res ∧
      res.deletes.countP (fun k => decide (k = indexKey i)) = 1 ∧
      invPath i ∈ res.invalidations := by
  have hidel : i ∈ deleteDirs indexes files' :=
    List.mem_filter.mpr ⟨hi, decide_eq_true hni⟩
  refine ⟨reconcileMain md5hex indexes files',
    reconcile_main_eq md5hex indexes files files' pfx hne hfill, ?_, ?_⟩
  · rw [reconcileMain_deletes]
    exact countP_map_eq_one indexKey (fun a b h => indexKey_inj h)
      (deleteDirs indexes files') i (List.Nodup.filter _ hnodup) hidel
  · rw [reconcileMain_invs]
    exact (mem_foldl_setAdd _ _ _).mpr
      (Or.inr (List.mem_map_of_mem _ (List.mem_append_left _ hidel)))

/-- C3 witness: a stale `photos/2019` listing alongside the non-empty root
content mapping is deleted exactly once and its path invalidated. -/
theorem stale_index_deleted_witness :
    ∃ res, reconcile (fun s => s) wIndexesStale wFiles1 [] = some res ∧
      res.deletes.countP (fun k => decide (k = indexKey "photos/2019".data)) = 1 ∧
      invPath "photos/2019".data ∈ res.invalidations :=
  stale_index_deleted (fun s => s) wIndexesStale wFiles1 wFiles1 [] "photos/2019".data
    (by decide) (by decide) (by decide) (by decide) (by decide)

/-- C3 counterexample: an enumeration whose only record is
`photos/2019/index.html` puts `photos/2019` in the listing index and nothing
in the content mapping; the post-completion mapping (root only) lacks the
directory, yet the run takes the `"No files found."` early exit and issues
zero deletes and zero invalidations — not the one delete the claim requires. -/
theorem index_only_bucket_cex :
    runFromRecords (fun s => s) [sampleRec "photos/2019/index.html".data] []
        = some ⟨true, [], [], []⟩
    ∧ "photos/2019".data ∈
        keysOf (split_bucket_contents [sampleRec "photos/2019/index.html".data]).1
    ∧ (split_bucket_contents [sampleRec "photos/2019/index.html".data]).2 = []
    ∧ fill_missing_parent_directories [] [] = some [([], [])]
    ∧ ¬ "photos/2019".data ∈ keysOf [(([] : Str), ([] : List ObjectRecord))] := by
  exact ⟨by decide, by decide, by decide, by decide, by decide⟩

/-! String-order lemmas and the rendering claims. -/

theorem strLeB_total : ∀ a b : Str, strLeB a b = true ∨ strLeB b a = true := by
  intro a
  induction a with
  | nil =>
    intro b
    left
    rfl
  | cons x xs ih =>
    intro b
    cases b with
    | nil =>
      right
      rfl
    | cons y ys =>
      by_cases hxy : x < y
      · left
        rw [strLeB, if_pos hxy]
      · by_cases heq : x = y
        · subst heq
          rcases ih ys with h | h
          · left
            rw [strLeB, if_neg hxy, if_pos rfl]
            exact h
          · right
            rw [strLeB, if_neg hxy, if_pos rfl]
            exact h
        · have hyx : y < x := by
            rcases lt_trichotomy x y with h | h | h
            · exact absurd h hxy
            · exact absurd h heq
            · exact h
          right
          rw [strLeB, if_pos hyx]

theorem strLeB_trans :
    ∀ a b c : Str, strLeB a b = true → strLeB b c = true → strLeB a c = true := by
  intro a
  induction a with
  | nil =>
    intro b c _ _
    rfl
  | cons x xs ih =>
    intro b c hab hbc
    cases b with
    | nil =>
      rw [strLeB] at hab
      exact absurd hab Bool.false_ne_true
    | cons y ys =>
      cases c with
      | nil =>
        rw [strLeB] at hbc
        exact absurd hbc Bool.false_ne_true
      | cons z zs =>
        rw [strLeB] at hab hbc ⊢
        by_cases hxy : x < y
        · by_cases hyz : y < z
          · rw [if_pos (lt_trans hxy hyz)]
          · by_cases heq : y = z
            · subst heq
              rw [if_pos hxy]
            · rw [if_neg hyz, if_neg heq] at hbc
              exact absurd hbc Bool.false_ne_true
        · by_cases heq : x = y
          · subst heq
            rw [if_neg hxy, if_pos rfl] at hab
            by_cases hxz : x < z
            · rw [if_pos hxz]
            · by_cases heq2 : x = z
              · subst heq2
                rw [if_neg hxz, if_pos rfl] at hbc ⊢
                exact ih ys zs hab hbc
              · rw [if_neg hxz, if_neg heq2] at hbc
                exact absurd hbc Bool.false_ne_true
          · rw [if_neg hxy, if_neg heq] at hab
            exact absurd hab Bool.false_ne_true

/-- C4 (amended): in every rendered listing, file entries and
immediate-subdirectory entries are merged into one list and appear sorted by
their bare entry names under Python string ordering (subdirectories compared
without the `/` display suffix); in the spec's example the rendered order is
`a/`, `b.txt`, `c.txt`.  When the display names (with the `/` suffix) order
differently than the bare names, the bare-name order prevails. -/
theorem entries_sorted_by_bare_name :
    (∀ files d, List.Sorted entryLe (sortedEntriesFor files d)) ∧
    (sortedEntriesFor exSortFiles []).map displayOf =
      ["a/".data, "b.txt".data, "c.txt".data] := by
  constructor
  · intro files d
    exact @List.sorted_insertionSort Entry entryLe _
      ⟨fun a b => strLeB_total a.1 b.1⟩ ⟨fun a b c => strLeB_trans a.1 b.1 c.1⟩
      (entriesFor files d)
  · decide

/-- C4 counterexample: in the directory holding the file `a!` and the
subdirectory `a`, the rendered order of display names is `a/`, `a!`, although
ordinary string ordering on display names puts `a!` strictly before `a/` — so
the rendered list is not sorted by display name as claimed. -/
theorem display_order_cex :
    (sortedEntriesFor exBangFiles []).map displayOf = ["a/".data, "a!".data]
    ∧ strLeB "a!".data "a/".data = true
    ∧ strLeB "a/".data "a!".data = false := by
  exact ⟨by decide, by decide, by decide⟩

/-- C8: `generate_index_for` is deterministic — its output is a pure function
of the directory's own record list and subdirectory key list, so any two
invocations over mappings agreeing on those (in particular two invocations
with the same arguments) return byte-identical strings, and hence equal
digests under every digest function. -/
theorem render_deterministic (files₁ files₂ : Dict (List ObjectRecord)) (d : Str)
    (hfiles : dictGet files₁ d = dictGet files₂ d)
    (hsub : subdirsOf files₁ d = subdirsOf files₂ d) :
    generate_index_for files₁ d = generate_index_for files₂ d ∧
    ∀ md5hex : Str → Str,
      md5hex (generate_index_for files₁ d) = md5hex (generate_index_for files₂ d) := by
  have he : entriesFor files₁ d = entriesFor files₂ d := by
    unfold entriesFor fileEntries
    rw [hfiles, hsub]
  have hg : generate_index_for files₁ d = generate_index_for files₂ d := by
    unfold generate_index_for tableRows sortedEntriesFor
    rw [he]
  exact ⟨hg, fun f => congrArg f hg⟩

set_option maxRecDepth 8000 in
/-- C8 witness: two concrete mappings agreeing on the root's records and
subdirectories render the root to identical bytes. -/
theorem render_deterministic_witness :
    generate_index_for wRender1 [] = generate_index_for wRender2 [] :=
  (render_deterministic wRender1 wRender2 [] (by decide) (by decide)).1

/-- C9 (bug evaluation): over the bucket `p/1, p/2, p/3, z/1` with page size 2
and prefix `p/`, the enumeration returns `z/1` as well, a record outside the
prefix — because the source's continuation requests carry only the
continuation token and drop the `Prefix` filter. -/
theorem continuation_ignores_filter :
    (get_complete_bucket exBucket 2 "p/".data).map (fun o => o.key)
        = ["p/1".data, "p/2".data, "p/3".data, "z/1".data]
    ∧ strStarts "p/".data "z/1".data = false := by
  exact ⟨by decide, by decide⟩

/-! Parent-link analysis: which entry rows can coincide with the parent row. -/

theorem dirDisp_eq (name : Str) :
    ∀ r₁ r₂ : Str, (∀ c ∈ name, c ≠ '/') →
      name ++ '/' :: r₁ = '.' :: '.' :: '/' :: r₂ → name = "..".data := by
  match name with
  | [] =>
    intro r₁ r₂ _ h
    injection h with h1 _
    exact absurd h1 (by decide)
  | [c1] =>
    intro r₁ r₂ _ h
    simp only [List.cons_append, List.nil_append] at h
    injection h with h1 h2
    injection h2 with h3 _
    exact absurd h3 (by decide)
  | [c1, c2] =>
    intro r₁ r₂ _ h
    simp only [List.cons_append, List.nil_append] at h
    injection h with h1 h2
    injection h2 with h3 h4
    subst h1
    subst h3
    rfl
  | c1 :: c2 :: c3 :: t3 =>
    intro r₁ r₂ hns h
    simp only [List.cons_append, List.nil_append] at h
    injection h with h1 h2
    injection h2 with h3 h4
    injection h4 with h5 _
    exact absurd h5 (hns c3 (by simp))

theorem fileRow_ne (name : Str) :
    ∀ r₁ r₂ : Str, (∀ c ∈ name, c ≠ '/') →
      name ++ ("\">".data ++ r₁) = '.' :: '.' :: '/' :: r₂ → False := by
  match name with
  | [] =>
    intro r₁ r₂ _ h
    have h' : ('"' :: '>' :: r₁ : Str) = '.' :: '.' :: '/' :: r₂ := h
    injection h' with h1 _
    exact absurd h1 (by decide)
  | [c1] =>
    intro r₁ r₂ _ h
    have h' : (c1 :: '"' :: '>' :: r₁ : Str) = '.' :: '.' :: '/' :: r₂ := h
    injection h' with h1 h2
    injection h2 with h3 _
    exact absurd h3 (by decide)
  | [c1, c2] =>
    intro r₁ r₂ _ h
    have h' : (c1 :: c2 :: '"' :: '>' :: r₁ : Str) = '.' :: '.' :: '/' :: r₂ := h
    injection h' with h1 h2
    injection h2 with h3 h4
    injection h4 with h5 _
    exact absurd h5 (by decide)
  | c1 :: c2 :: c3 :: t3 =>
    intro r₁ r₂ hns h
    have h' : (c1 :: c2 :: c3 :: (t3 ++ ("\">".data ++ r₁)) : Str)
        = '.' :: '.' :: '/' :: r₂ := h
    injection h' with h1 h2
    injection h2 with h3 h4
    injection h4 with h5 _
    exact absurd h5 (hns c3 (by simp))

theorem entryRow_dir_name (name : Str) (hns : ∀ c ∈ name, c ≠ '/')
    (h : entryRow (name, none, none) = parentRow) : name = "..".data := by
  have hL : entryRow (name, none, none) =
      "<tr><td><a href=\"".data ++ (name ++ ['/']) ++ "\">".data ++ (name ++ ['/'])
        ++ "</a></td><td>".data ++ [] ++ "</td><td>".data ++ [] ++ "</td></tr>\n".data := rfl
  have hR : parentRow =
      "<tr><td><a href=\"".data ++ ('.' :: '.' :: '/' ::
        ("\">".data ++ ('.' :: '.' :: '/' ::
          ("</a></td><td>".data ++ ("</td><td>".data ++ "</td></tr>\n".data))))) := by decide
  rw [hL, hR] at h
  simp only [List.append_assoc, List.nil_append, List.singleton_append] at h
  exact dirDisp_eq name _ _ hns (List.append_cancel_left h)

theorem entryRow_file_ne (name : Str) (dt : PyDateTime) (n : Nat)
    (hns : ∀ c ∈ name, c ≠ '/')
    (h : entryRow (name, some dt, some n) = parentRow) : False := by
  have hL : entryRow (name, some dt, some n) =
      "<tr><td><a href=\"".data ++ (name ++ []) ++ "\">".data ++ (name ++ [])
        ++ "</a></td><td>".data ++ strftimeRow dt ++ "</td><td>".data ++ natStr n
        ++ "</td></tr>\n".data := rfl
  have hR : parentRow =
      "<tr><td><a href=\"".data ++ ('.' :: '.' :: '/' ::
        ("\">".data ++ ('.' :: '.' :: '/' ::
          ("</a></td><td>".data ++ ("</td><td>".data ++ "</td></tr>\n".data))))) := by decide
  rw [hL, hR] at h
  simp only [List.append_assoc, List.append_nil, List.nil_append] at h
  exact fileRow_ne name _ _ hns (List.append_cancel_left h)

/-- C6 (amended): a rendered listing's table rows contain the
parent-directory link row exactly when the directory string being rendered is
non-empty (given that no immediate subdirectory is named `..`, which would
render an identical row).  In particular, with a non-empty operating prefix
the prefix directory itself is rendered with its non-empty path string, so its
listing DOES contain a parent link. -/
theorem parent_link_iff_nonroot (files : Dict (List ObjectRecord)) (d : Str)
    (hdd : ∀ dn ∈ subdirsOf files d, ¬ basename dn = "..".data) :
    parentRow ∈ tableRows files d ↔ ¬ d = [] := by
  unfold tableRows
  constructor
  · intro hmem hd
    rw [if_pos hd, List.nil_append] at hmem
    obtain ⟨e, he, hee⟩ := List.mem_map.mp hmem
    unfold sortedEntriesFor at he
    have he' : e ∈ entriesFor files d :=
      (List.perm_insertionSort entryLe (entriesFor files d)).mem_iff.mp he
    unfold entriesFor fileEntries at he'
    rcases List.mem_append.mp he' with hf | hs
    · obtain ⟨o, _, rfl⟩ := List.mem_map.mp hf
      exact entryRow_file_ne (basename o.key) o.lastModified o.size
        (mem_basename_ne_slash o.key) hee
    · obtain ⟨dn, hdn, rfl⟩ := List.mem_map.mp hs
      exact hdd dn hdn (entryRow_dir_name (basename dn) (mem_basename_ne_slash dn) hee)
  · intro hd
    rw [if_neg hd]
    exact List.mem_append_left _ (List.mem_singleton.mpr rfl)

/-- C6 witness: rendering the non-root directory `p` of a concrete mapping
(with no subdirectory named `..`) produces the parent-directory link row. -/
theorem parent_link_iff_nonroot_witness :
    parentRow ∈ tableRows [("p".data, [])] "p".data :=
  (parent_link_iff_nonroot [("p".data, [])] "p".data (by decide)).mpr (by decide)

/-- C6 counterexample: with the non-empty operating prefix `p`, completion
leaves the prefix directory `p` in the mapping, and the listing rendered for
`p` — the root of this run — contains the parent-directory link row, contrary
to the claim that the prefix root's listing has no parent link. -/
theorem prefix_root_parent_link_cex :
    fill_missing_parent_directories [("p".data, [sampleRec "p/f.txt".data])] "p".data
        = some [("p".data, [sampleRec "p/f.txt".data])]
    ∧ parentRow ∈ tableRows [("p".data, [sampleRec "p/f.txt".data])] "p".data := by
  exact ⟨by decide, by decide⟩

end S3IB
